import Mathlib

/-!
Verification of the benchmark harness core (benchmark.cc, benchmark_register.cc)
against its natural-language specification.  The C++ code is shallowly embedded:
pure loops become structural recursions, the process-wide registry state is
passed explicitly, and calls to std::exit are modelled by an Outcome type.
-/

namespace Benchmark

/-! ## ArgsProduct (benchmark_register.cc, Benchmark::ArgsProduct)

The C++ loop keeps a vector of indices, one per argument list, emits the tuple
selected by the current indices, and then increments the index vector with the
do-while odometer: position 0 is incremented first, and the increment carries
to the next position exactly when the previous one wrapped to 0. -/

/-- One pass of the do-while index-increment loop of ArgsProduct: increment the
first index modulo its radix and carry into the following positions while the
incremented index wrapped around to 0. -/
def odoStep : List Nat → List Nat → List Nat
  | r :: rs, d :: ds =>
    let d1 := (d + 1) % r
    if d1 = 0 then d1 :: odoStep rs ds else d1 :: ds
  | _, _ => []

/-- The tuple emitted by the inner loop of ArgsProduct for a given index
vector: position arg of the tuple is arglists[arg][indices[arg]]. -/
def tupleAt (arglists : List (List Int)) (indices : List Nat) : List Int :=
  (arglists.zip indices).map (fun p => p.1.getD p.2 0)

/-- The outer loop of ArgsProduct: emit the tuple at the current index vector,
then advance the index vector, for the given number of iterations. -/
def argsProductLoop (arglists : List (List Int)) : Nat → List Nat → List (List Int)
  | 0, _ => []
  | n + 1, indices =>
    tupleAt arglists indices ::
      argsProductLoop arglists n (odoStep (arglists.map List.length) indices)

/-- Benchmark::ArgsProduct: the total count is the product of the list sizes
(std::accumulate with multiplication), the index vector is zero-initialised,
and the loop body runs total times. -/
def argsProduct (arglists : List (List Int)) : List (List Int) :=
  argsProductLoop arglists ((arglists.map List.length).prod)
    (List.replicate arglists.length 0)

/-- Little-endian mixed-radix digits of j: the digit at position 0 has the
radix of the first list and varies fastest. -/
def mixedDigits : List Nat → Nat → List Nat
  | [], _ => []
  | r :: rs, j => (j % r) :: mixedDigits rs (j / r)

/-- Follows the claim wording (comparison reference, not the code): the j-th
tuple is the mixed-radix decode of j with radices taken from the last argument
list down to the first, so that the last tuple position varies fastest. -/
def specTupleLastFastest (arglists : List (List Int)) (j : Nat) : List Int :=
  (tupleAt arglists.reverse (mixedDigits (arglists.reverse.map List.length) j)).reverse

theorem mixedDigits_zero (radices : List Nat) :
    mixedDigits radices 0 = List.replicate radices.length 0 := by
  induction radices with
  | nil => rfl
  | cons r rs ih => simp [mixedDigits, Nat.zero_div, ih, List.replicate]

theorem odoStep_mixedDigits (radices : List Nat) :
    ∀ j : Nat, j + 1 ≤ radices.prod →
      odoStep radices (mixedDigits radices j) = mixedDigits radices (j + 1) := by
  induction radices with
  | nil => intro j h; rfl
  | cons r rs ih =>
    intro j h
    rw [List.prod_cons] at h
    have hr : 0 < r := by
      rcases Nat.eq_zero_or_pos r with h0 | h0
      · subst h0; simp at h
      · exact h0
    have hmod : j % r < r := Nat.mod_lt _ hr
    have hdm : r * (j / r) + j % r = j := Nat.div_add_mod j r
    by_cases hwrap : j % r + 1 = r
    · -- the first digit wraps to 0 and the carry propagates
      have hj1 : j + 1 = r * (j / r + 1) := by
        rw [Nat.mul_add, Nat.mul_one]
        omega
      have hmod1 : (j + 1) % r = 0 := by rw [hj1]; exact Nat.mul_mod_right _ _
      have hdiv1 : (j + 1) / r = j / r + 1 := by
        rw [hj1]; exact Nat.mul_div_cancel_left _ hr
      have hrec : j / r + 1 ≤ rs.prod := by
        have h2 : r * (j / r + 1) ≤ r * rs.prod := by rw [← hj1]; exact h
        exact Nat.le_of_mul_le_mul_left h2 hr
      simp only [mixedDigits, odoStep]
      rw [hwrap, hmod1, hdiv1]
      simp [Nat.mod_self, ih _ hrec]
    · -- the first digit does not wrap; higher digits are unchanged
      have hlt : j % r + 1 < r := by omega
      have hj1 : j + 1 = r * (j / r) + (j % r + 1) := by omega
      have hmod1 : (j + 1) % r = j % r + 1 := by
        rw [hj1, Nat.mul_add_mod, Nat.mod_eq_of_lt hlt]
      have hdiv1 : (j + 1) / r = j / r := by
        rw [hj1, Nat.mul_add_div hr, Nat.div_eq_of_lt hlt, Nat.add_zero]
      simp only [mixedDigits, odoStep]
      have hne : (j % r + 1) % r ≠ 0 := by
        rw [Nat.mod_eq_of_lt hlt]; omega
      rw [if_neg hne, Nat.mod_eq_of_lt hlt, hmod1, hdiv1]

theorem argsProductLoop_spec (arglists : List (List Int)) :
    ∀ (n j0 : Nat), j0 + n ≤ (arglists.map List.length).prod →
      argsProductLoop arglists n (mixedDigits (arglists.map List.length) j0) =
        (List.range' j0 n).map
          (fun j => tupleAt arglists (mixedDigits (arglists.map List.length) j)) := by
  intro n
  induction n with
  | zero => intro j0 _; rfl
  | succ n ih =>
    intro j0 h
    rw [List.range'_succ, List.map_cons]
    simp only [argsProductLoop]
    rw [odoStep_mixedDigits _ j0 (by omega), ih (j0 + 1) (by omega)]

theorem getD_map_range' (f : Nat → List Int) :
    ∀ (n s i : Nat), i < n →
      ((List.range' s n).map f).getD i [] = f (s + i) := by
  intro n
  induction n with
  | zero => intro s i h; omega
  | succ n ih =>
    intro s i h
    rw [List.range'_succ, List.map_cons]
    cases i with
    | zero => simp
    | succ i =>
      have := ih (s + 1) i (by omega)
      simpa [Nat.add_assoc, Nat.add_comm 1 i] using this

theorem argsProductLoop_length (arglists : List (List Int)) :
    ∀ (n : Nat) (indices : List Nat),
      (argsProductLoop arglists n indices).length = n := by
  intro n
  induction n with
  | zero => intro indices; rfl
  | succ n ih => intro indices; simp [argsProductLoop, ih]

/-- C1 (amended): for every list of non-empty argument lists, argsProduct
returns a list whose length is the product of the list sizes and whose j-th
tuple is the mixed-radix decode of j in which the radix of the FIRST argument
list is least significant, i.e. the first tuple position varies fastest. -/
theorem argsProduct_mixed_radix (arglists : List (List Int))
    (hne : ∀ l ∈ arglists, l ≠ []) :
    (argsProduct arglists).length = (arglists.map List.length).prod ∧
    ∀ j < (arglists.map List.length).prod,
      (argsProduct arglists).getD j [] =
        tupleAt arglists (mixedDigits (arglists.map List.length) j) := by
  constructor
  · exact argsProductLoop_length arglists _ _
  · intro j hj
    have hlen : (arglists.map List.length).length = arglists.length := by
      simp
    unfold argsProduct
    rw [← hlen, ← mixedDigits_zero,
      argsProductLoop_spec arglists _ 0 (by omega)]
    have := getD_map_range'
      (fun j => tupleAt arglists (mixedDigits (arglists.map List.length) j))
      ((arglists.map List.length).prod) 0 j hj
    simpa using this

/-- C1 witness: the theorem evaluated at the concrete input [[0,1],[10,20]]. -/
theorem argsProduct_mixed_radix_witness :
    (argsProduct [[0, 1], [10, 20]]).getD 2 [] =
      tupleAt [[0, 1], [10, 20]] (mixedDigits ([[0, 1], [10, 20]].map List.length) 2) :=
  (argsProduct_mixed_radix [[0, 1], [10, 20]] (by decide)).2 2 (by decide)

/-- C1 counterexample: at input [[0,1],[10,20]], tuple number 1 produced by the
code is [1,10] (first position varies fastest), while the claim as stated
predicts the last-position-fastest decode [0,20]. -/
theorem argsProduct_not_last_fastest :
    (argsProduct [[0, 1], [10, 20]]).getD 1 [] = [1, 10] ∧
    specTupleLastFastest [[0, 1], [10, 20]] 1 = [0, 20] ∧
    (argsProduct [[0, 1], [10, 20]]).getD 1 [] ≠
      specTupleLastFastest [[0, 1], [10, 20]] 1 := by
  refine ⟨by decide, by decide, by decide⟩

/-! ## Family registry and instance expansion
(benchmark_register.cc, BenchmarkFamilies::FindBenchmarks)

A family records the builder state that expansion reads: name, pushed argument
tuples, argument names, and thread counts.  FindBenchmarks walks the families
in registration order; if ArgsCnt() is -1 (no argument tuples AND no argument
names) it pushes one empty tuple, substitutes the thread list {1} when none was
registered, warns when the family expands to more than kMaxFamilySize = 100
candidate instances, and then filters the args-outer/threads-inner cross
product by the name predicate, assigning the dense family index on the first
included instance. -/

structure Family where
  name : String
  args : List (List Int)
  argNames : List String
  threadCounts : List Nat

/-- The argument tuples used by expansion: FindBenchmarks pushes a single empty
tuple when ArgsCnt() == -1, which holds iff both the argument tuples and the
argument names are empty. -/
def effArgs (fam : Family) : List (List Int) :=
  if fam.args = [] ∧ fam.argNames = [] then [[]] else fam.args

/-- The thread counts used by expansion: the singleton {1} when the family
registered none. -/
def effThreads (fam : Family) : List Nat :=
  if fam.threadCounts = [] then [1] else fam.threadCounts

/-- family_size of FindBenchmarks: args_.size() * thread_counts->size(),
computed after the empty-args fix-up and the thread-count default. -/
def familySize (fam : Family) : Nat :=
  (effArgs fam).length * (effThreads fam).length

/-- Modelled from the spec: the instance display name (BenchmarkInstance name
construction is not under src/).  Section 4.2: name[/a=3/b=7/threads:4]; arg
segments use the family ArgNames when provided, otherwise just the numeric
value; the threads suffix is omitted when the thread count is 1 and the family
registered no thread list. -/
def instanceName (fam : Family) (args : List Int) (threads : Nat) : String :=
  let argPart := String.join (args.enum.map (fun q =>
    match fam.argNames.getD q.1 "" with
    | "" => "/" ++ toString q.2
    | nm => "/" ++ nm ++ "=" ++ toString q.2))
  let threadPart :=
    if threads = 1 ∧ fam.threadCounts = [] then "" else "/threads:" ++ toString threads
  fam.name ++ argPart ++ threadPart

/-- The candidate (argument tuple, thread count) pairs of one family, in the
order of the two nested loops: argument tuples outer, thread counts inner. -/
def crossPairs (fam : Family) : List (List Int × Nat) :=
  ((effArgs fam).map (fun a => (effThreads fam).map (fun t => (a, t)))).flatten

structure BInstance where
  familyIndex : Nat
  perFamilyIndex : Nat
  name : String
  args : List Int
  numThreads : Nat

/-- The inner loops of FindBenchmarks for one family: walk the candidate pairs,
include a candidate iff the name predicate accepts its full name, and give
included instances consecutive per-family indices. -/
def expandGo (keep : String → Bool) (fam : Family) (fidx : Nat) :
    List (List Int × Nat) → Nat → List BInstance
  | [], _ => []
  | p :: rest, per =>
    if keep (instanceName fam p.1 p.2) then
      ⟨fidx, per, instanceName fam p.1 p.2, p.1, p.2⟩ ::
        expandGo keep fam fidx rest (per + 1)
    else expandGo keep fam fidx rest per

/-- All instances one family contributes, starting the per-family index at 0. -/
def expandOne (keep : String → Bool) (fam : Family) (fidx : Nat) : List BInstance :=
  expandGo keep fam fidx (crossPairs fam) 0

/-- The diagnostic line FindBenchmarks writes to the error stream for an
oversized family. -/
def diagMsg (fam : Family) : String :=
  "The number of inputs is very large. " ++ fam.name ++
    " will be repeated at least " ++ toString (familySize fam) ++ " times.\n"

/-- The outer loop of FindBenchmarks: returns the included instances and the
emitted diagnostic lines.  The next dense family index is advanced only when
the family contributed at least one instance. -/
def findGo (keep : String → Bool) : List Family → Nat → List BInstance × List String
  | [], _ => ([], [])
  | fam :: rest, nextIdx =>
    let diag : List String := if familySize fam > 100 then [diagMsg fam] else []
    let insts := expandOne keep fam nextIdx
    let r := findGo keep rest (if insts.isEmpty then nextIdx else nextIdx + 1)
    (insts ++ r.1, diag ++ r.2)

/-- BenchmarkFamilies::FindBenchmarks with the name predicate already built. -/
def findBenchmarks (keep : String → Bool) (families : List Family) :
    List BInstance × List String :=
  findGo keep families 0

/-- The candidate pairs of a family that pass the name predicate. -/
def keptPairs (keep : String → Bool) (fam : Family) : List (List Int × Nat) :=
  (crossPairs fam).filter (fun p => keep (instanceName fam p.1 p.2))

/-- Follows the specification wording (comparison reference, not the code):
families are expanded in registration order; a family that contributes no
matching instance is skipped and gets no family index; contributing families
receive dense indices from the running counter; within a family the matching
instances keep cross-product order and are numbered from 0. -/
def findExpected (keep : String → Bool) : List Family → Nat → List BInstance
  | [], _ => []
  | fam :: rest, c =>
    let kp := keptPairs keep fam
    if kp.isEmpty then findExpected keep rest c
    else
      kp.enum.map (fun q => ⟨c, q.1, instanceName fam q.2.1 q.2.2, q.2.1, q.2.2⟩) ++
        findExpected keep rest (c + 1)

theorem expandGo_eq (keep : String → Bool) (fam : Family) (fidx : Nat) :
    ∀ (l : List (List Int × Nat)) (per : Nat),
      expandGo keep fam fidx l per =
        ((l.filter (fun p => keep (instanceName fam p.1 p.2))).enumFrom per).map
          (fun q => ⟨fidx, q.1, instanceName fam q.2.1 q.2.2, q.2.1, q.2.2⟩) := by
  intro l
  induction l with
  | nil => intro per; rfl
  | cons p rest ih =>
    intro per
    by_cases h : keep (instanceName fam p.1 p.2)
    · simp [expandGo, h, List.filter_cons, List.enumFrom, ih]
    · simp [expandGo, h, List.filter_cons, ih]

theorem expandOne_eq (keep : String → Bool) (fam : Family) (fidx : Nat) :
    expandOne keep fam fidx =
      (keptPairs keep fam).enum.map
        (fun q => ⟨fidx, q.1, instanceName fam q.2.1 q.2.2, q.2.1, q.2.2⟩) := by
  rw [expandOne, expandGo_eq, keptPairs, List.enum]

theorem expandOne_isEmpty (keep : String → Bool) (fam : Family) (fidx : Nat) :
    (expandOne keep fam fidx).isEmpty = (keptPairs keep fam).isEmpty := by
  rw [expandOne_eq]
  cases h : keptPairs keep fam <;> simp [h, List.enum, List.enumFrom]

theorem findGo_fst (keep : String → Bool) :
    ∀ (families : List Family) (c : Nat),
      (findGo keep families c).1 = findExpected keep families c := by
  intro families
  induction families with
  | nil => intro c; rfl
  | cons fam rest ih =>
    intro c
    simp only [findGo, findExpected]
    by_cases h : (keptPairs keep fam).isEmpty
    · have he : expandOne keep fam c = [] := by
        have := expandOne_isEmpty keep fam c
        rw [h] at this
        exact List.isEmpty_iff.mp this
      rw [if_pos h]
      simp [he, expandOne_isEmpty, h, ih]
    · have he : (expandOne keep fam c).isEmpty = false := by
        rw [expandOne_isEmpty, Bool.eq_false_iff]
        exact h
      have hne : keptPairs keep fam ≠ [] := by
        intro hh; exact h (by simp [hh])
      rw [if_neg h]
      simp [he, expandOne_eq, ih, hne]

/-- C4: FindBenchmarks assigns dense family indices starting at 0 in the order
families first contribute a matching instance; a family with no matching
instance gets no index; within a family the matched instances are numbered
from 0 in cross-product order (argument tuples outer, thread counts inner). -/
theorem find_dense_family_indices (keep : String → Bool) (families : List Family) :
    (findBenchmarks keep families).1 = findExpected keep families 0 :=
  findGo_fst keep families 0

theorem crossPairs_length (fam : Family) :
    (crossPairs fam).length = (effArgs fam).length * (effThreads fam).length := by
  unfold crossPairs
  induction (effArgs fam) with
  | nil => simp
  | cons a rest ih =>
    simp only [List.map_cons, List.flatten_cons, List.length_append, List.length_map,
      List.length_cons, ih]
    rw [Nat.succ_mul, Nat.add_comm]

theorem expandOne_true_length (fam : Family) (fidx : Nat) :
    (expandOne (fun _ => true) fam fidx).length = familySize fam := by
  rw [expandOne_eq, List.length_map, List.enum_length, keptPairs]
  simp [List.filter_true, crossPairs_length, familySize]

/-- C3 (amended): under a match-all filter a family expands to exactly
(number of argument tuples, or 1 when BOTH the tuples and the argument names
are absent) times max(1, number of thread counts) instances.  A family with
argument names but no pushed tuples expands to zero instances. -/
theorem expansion_count (fam : Family) (fidx : Nat) :
    (expandOne (fun _ => true) fam fidx).length =
      (if fam.args = [] ∧ fam.argNames = [] then 1 else fam.args.length) *
        max 1 fam.threadCounts.length := by
  rw [expandOne_true_length, familySize]
  have h1 : (effArgs fam).length =
      if fam.args = [] ∧ fam.argNames = [] then 1 else fam.args.length := by
    unfold effArgs
    by_cases h : fam.args = [] ∧ fam.argNames = [] <;> simp [h]
  have h2 : (effThreads fam).length = max 1 fam.threadCounts.length := by
    unfold effThreads
    cases h : fam.threadCounts with
    | nil => simp [h]
    | cons t ts =>
      simp only [h, List.length_cons, if_neg (List.cons_ne_nil t ts)]
      omega
  rw [h1, h2]

/-- Formalises the count asserted by the claim: |args| (treating a family with
no pushed tuples as having one empty tuple) times max(1, |thread_counts|). -/
def claimInstanceCount (fam : Family) : Nat :=
  (if fam.args = [] then 1 else fam.args.length) * max 1 fam.threadCounts.length

/-- C3 counterexample: a family with an argument name but no pushed argument
tuples expands to zero instances, while the claim predicts one. -/
theorem expansion_count_argnames_cex :
    (expandOne (fun _ => true) ⟨"f", [], ["n"], []⟩ 0).length = 0 ∧
    claimInstanceCount ⟨"f", [], ["n"], []⟩ = 1 ∧
    (expandOne (fun _ => true) ⟨"f", [], ["n"], []⟩ 0).length ≠
      claimInstanceCount ⟨"f", [], ["n"], []⟩ := by
  refine ⟨by decide, by decide, by decide⟩

/-- C8: a family produces a diagnostic line on the error stream iff its
expansion under no filter yields more than 100 instances; the diagnostics do
not depend on the filter predicate. -/
theorem find_family_size_diagnostics (keep : String → Bool) (families : List Family)
    (c : Nat) :
    (findGo keep families c).2 =
      (families.filter (fun f => decide (100 < familySize f))).map diagMsg ∧
    ∀ fam : Family, familySize fam = (expandOne (fun _ => true) fam 0).length := by
  constructor
  · induction families generalizing c with
    | nil => rfl
    | cons fam rest ih =>
      simp only [findGo, List.filter_cons]
      by_cases h : 100 < familySize fam
      · simp [h, ih]
      · simp [h, ih]
  · intro fam
    exact (expandOne_true_length fam 0).symm

/-! ## Filter string handling (RunSpecifiedBenchmarks and FindBenchmarks) -/

/-- RunSpecifiedBenchmarks: an empty filter string or the string all is
replaced by the match-all regex dot. -/
def normalizeSpec (s : String) : String :=
  if s = "" then "." else if s = "all" then "." else s

/-- FindBenchmarks: a spec whose first character is a dash has the dash
removed and marks the filter negative. -/
def splitNeg (spec : String) : String × Bool :=
  match spec.data with
  | [] => (spec, false)
  | c :: rest => if c = '-' then (String.mk rest, true) else (spec, false)

/-- The inclusion test of FindBenchmarks: match and not negative, or no match
and negative. -/
def keepName (reMatch : String → Bool) (isNeg : Bool) (nm : String) : Bool :=
  (reMatch nm && !isNeg) || (!reMatch nm && isNeg)

/-- The filter pipeline of RunSpecifiedBenchmarks feeding FindBenchmarks,
with regex compilation abstracted as a function from pattern to predicate. -/
def runFilter (compile : String → String → Bool) (fl : String)
    (families : List Family) : List BInstance :=
  (findGo (keepName (compile (splitNeg (normalizeSpec fl)).1)
    (splitNeg (normalizeSpec fl)).2) families 0).1

/-- C5: the empty filter and the filter all are treated as the match-all
regex dot; a leading dash is removed and negates the filter; an instance is
included iff its full expanded name matches the pattern (positive filter) or
does not match it (negative filter). -/
theorem filter_semantics :
    (∀ (compile : String → String → Bool) (fl : String) (families : List Family),
      runFilter compile fl families =
        findExpected (keepName (compile (splitNeg (normalizeSpec fl)).1)
          (splitNeg (normalizeSpec fl)).2) families 0) ∧
    (∀ (m : String → Bool) (neg : Bool) (nm : String),
      keepName m neg nm = if neg then !(m nm) else m nm) ∧
    normalizeSpec "" = "." ∧
    normalizeSpec "all" = "." ∧
    (∀ s : String, s ≠ "" → s ≠ "all" → normalizeSpec s = s) ∧
    (∀ rest : List Char, splitNeg (String.mk ('-' :: rest)) = (String.mk rest, true)) ∧
    (∀ (c : Char) (rest : List Char), c ≠ '-' →
      splitNeg (String.mk (c :: rest)) = (String.mk (c :: rest), false)) := by
  refine ⟨?_, ?_, rfl, rfl, ?_, ?_, ?_⟩
  · intro compile fl families
    exact findGo_fst _ families 0
  · intro m neg nm
    cases neg <;> cases hm : m nm <;> simp [keepName, hm]
  · intro s h1 h2
    simp [normalizeSpec, h1, h2]
  · intro rest
    simp [splitNeg]
  · intro c rest h
    simp [splitNeg, h]

/-- C5 witness: the theorem applied at concrete inputs, discharging the
hypotheses of its conditional conjuncts. -/
theorem filter_semantics_witness :
    normalizeSpec "BM_Foo" = "BM_Foo" ∧
    splitNeg (String.mk ('x' :: ['y'])) = (String.mk ('x' :: ['y']), false) :=
  ⟨filter_semantics.2.2.2.2.1 "BM_Foo" (by decide) (by decide),
   filter_semantics.2.2.2.2.2.2 'x' ['y'] (by decide)⟩

/-! ## State::SkipWithError (benchmark.cc, lines 214 to 226)

The per-thread State fields touched by SkipWithError, the per-thread timer
running flag, and the ThreadManager shared result fields it writes under the
mutex.  The mutex itself is not modelled: the claim is about the sequential
effect of the calls. -/

structure SState where
  total_iterations : Nat
  error_occurred : Bool
  timer_running : Bool

structure MgrResults where
  has_error : Bool
  error_message : String

/-- State::SkipWithError: set the error flag, record the message into the
shared accumulator only when no error was recorded yet, zero the iteration
counter, and stop the timer if it is running. -/
def skipWithError (msg : String) (s : SState) (m : MgrResults) : SState × MgrResults :=
  ({ total_iterations := 0,
     error_occurred := true,
     timer_running := if s.timer_running then false else s.timer_running },
   if m.has_error = false then { has_error := true, error_message := msg } else m)

/-- Modelled from the spec: the hot iteration check of State::KeepRunning (the
KeepRunning body lives in the library header, which is not under src/) returns
true iff the countdown counter is non-zero. -/
def keepRunningCheck (s : SState) : Bool :=
  s.total_iterations != 0

/-- C2: the first SkipWithError call sets the error flag, records the message
(first writer wins), zeroes the counter so the next iteration check returns
false, and stops the timer; a later call from any State sharing the manager
leaves the first message intact. -/
theorem skipWithError_first_wins (msg1 msg2 : String) (s1 s2 : SState)
    (m : MgrResults) (h : m.has_error = false) :
    (skipWithError msg1 s1 m).1.error_occurred = true ∧
    (skipWithError msg1 s1 m).1.total_iterations = 0 ∧
    keepRunningCheck (skipWithError msg1 s1 m).1 = false ∧
    (skipWithError msg1 s1 m).1.timer_running = false ∧
    (skipWithError msg1 s1 m).2.has_error = true ∧
    (skipWithError msg1 s1 m).2.error_message = msg1 ∧
    (skipWithError msg2 s2 (skipWithError msg1 s1 m).2).2.has_error = true ∧
    (skipWithError msg2 s2 (skipWithError msg1 s1 m).2).2.error_message = msg1 := by
  refine ⟨rfl, rfl, rfl, ?_, ?_, ?_, ?_, ?_⟩ <;>
    cases hr : s1.timer_running <;>
      simp [skipWithError, keepRunningCheck, h, hr]

/-- C2 witness: the theorem applied at a concrete state with a clean manager. -/
theorem skipWithError_first_wins_witness :
    (MgrResults.mk false "").has_error = false ∧
    (skipWithError "second" ⟨4, false, false⟩
      (skipWithError "first" ⟨7, false, true⟩ ⟨false, ""⟩).2).2.error_message = "first" :=
  ⟨rfl, (skipWithError_first_wins "first" "second" ⟨7, false, true⟩ ⟨4, false, false⟩
    ⟨false, ""⟩ rfl).2.2.2.2.2.2.2⟩

/-! ## Report (benchmark.cc, lines 268 to 288)

report_one first clears the aggregates-only flag when the instance has no
aggregate runs, then passes the non-aggregate batch unless the flag (still)
holds, and finally passes the aggregate batch when it is non-empty.  A call to
ReportRuns is modelled as its batch; the runs themselves are opaque. -/

def reportOne {α : Type} (aggregatesOnly : Bool) (nonAgg agg : List α) :
    List (List α) :=
  (if !(aggregatesOnly && !agg.isEmpty) then [nonAgg] else []) ++
    (if !agg.isEmpty then [agg] else [])

structure RunResults (α : Type) where
  non_aggregates : List α
  aggregates_only : List α
  display_report_aggregates_only : Bool
  file_report_aggregates_only : Bool

/-- Report: dispatch report_one to the display reporter and to the file
reporter with their respective aggregates-only flags.  The pair holds the
batches passed to the display reporter and to the file reporter. -/
def report {α : Type} (r : RunResults α) : List (List α) × List (List α) :=
  (reportOne r.display_report_aggregates_only r.non_aggregates r.aggregates_only,
   reportOne r.file_report_aggregates_only r.non_aggregates r.aggregates_only)

/-- C6 (amended): when the aggregates-only flags are in effect and the
instance has at least one aggregate run, both reporters receive exactly the
aggregate batch and the per-repetition runs are suppressed; an instance with
no aggregate runs has its per-repetition runs reported even under the flag. -/
theorem report_aggregates_only_suppresses {α : Type} (nonAgg agg : List α)
    (h : agg ≠ []) :
    report (RunResults.mk nonAgg agg true true) = ([agg], [agg]) := by
  have he : agg.isEmpty = false := by
    cases agg with
    | nil => exact absurd rfl h
    | cons a l => rfl
  simp [report, reportOne, he]

/-- C6 witness: the amended theorem at a concrete instance. -/
theorem report_aggregates_only_suppresses_witness :
    ([1] : List Nat) ≠ [] ∧
    report (RunResults.mk [0] [1] true true) = ([[1]], [[1]]) :=
  ⟨by decide, report_aggregates_only_suppresses [0] [1] (by decide)⟩

/-- C6 counterexample: with the aggregates-only flags in effect but an empty
aggregate list, the per-repetition batch is still passed to both reporters,
contradicting the claim that no non-aggregate run reaches any reporter. -/
theorem report_empty_aggregates_cex :
    report (RunResults.mk [(0 : Nat)] [] true true) = ([[0]], [[0]]) ∧
    ([[(0 : Nat)]] : List (List Nat)) ≠ [] := by
  refine ⟨by decide, by decide⟩

/-! ## Exit codes (benchmark.cc: PrintUsageAndExit, ValidateCommandLineFlags,
CreateReporter, RunSpecifiedBenchmarks) -/

inductive Outcome (α : Type) where
  | exited (code : Nat)
  | ok (a : α)
deriving DecidableEq

/-- The format strings accepted by CreateReporter and flag validation. -/
def validFormat (s : String) : Bool :=
  s == "console" || s == "json" || s == "csv"

/-- CreateReporter: builds a reporter for console, json or csv, and otherwise
prints the unexpected format and calls std::exit(1). -/
def createReporter (name : String) : Outcome Unit :=
  if validFormat name then Outcome.ok () else Outcome.exited 1

/-- ValidateCommandLineFlags: an invalid format or out_format flag, or an
empty color flag, goes through PrintUsageAndExit, which calls exit(0). -/
def validateCommandLineFlags (fmt outFmt color : String) : Outcome Unit :=
  if !validFormat fmt || !validFormat outFmt then Outcome.exited 0
  else if color = "" then Outcome.exited 0
  else Outcome.ok ()

/-- The reporter-setup prefix of RunSpecifiedBenchmarks: create the display
reporter when none was supplied (exit 1 on a bad format string); exit 1 when a
custom file reporter was supplied without the out flag; when the out flag is
set, exit 1 if the file cannot be opened, then create the file reporter when
none was supplied (exit 1 on a bad out format string). -/
def runSpecifiedSetup (displayProvided fileProvided : Bool)
    (fmt outFmt fname : String) (canOpen : String → Bool) : Outcome Unit :=
  match (if displayProvided then Outcome.ok () else createReporter fmt) with
  | Outcome.exited c => Outcome.exited c
  | Outcome.ok _ =>
    if fname = "" ∧ fileProvided then Outcome.exited 1
    else if fname ≠ "" then
      if !canOpen fname then Outcome.exited 1
      else if !fileProvided then createReporter outFmt
      else Outcome.ok ()
    else Outcome.ok ()

/-- C7 (amended): reporter creation exits 1 on a format string outside
console/json/csv, but flag validation exits 0 (via the usage message) on an
invalid format flag; a custom file reporter without the out flag exits 1; an
unopenable output file exits 1; with valid formats and an openable file the
setup succeeds. -/
theorem exit_code_rules (fmt outFmt color fname : String)
    (fileProvided : Bool) (canOpen : String → Bool) :
    (validFormat fmt = false → createReporter fmt = Outcome.exited 1) ∧
    (validFormat fmt = false →
      validateCommandLineFlags fmt outFmt color = Outcome.exited 0) ∧
    (fileProvided = true →
      runSpecifiedSetup true fileProvided fmt outFmt "" canOpen = Outcome.exited 1) ∧
    (fname ≠ "" → canOpen fname = false →
      runSpecifiedSetup true fileProvided fmt outFmt fname canOpen =
        Outcome.exited 1) ∧
    (validFormat fmt = true → validFormat outFmt = true → fname ≠ "" →
      canOpen fname = true →
      runSpecifiedSetup false fileProvided fmt outFmt fname canOpen =
        Outcome.ok ()) := by
  refine ⟨?_, ?_, ?_, ?_, ?_⟩
  · intro h; simp [createReporter, h]
  · intro h; simp [validateCommandLineFlags, h]
  · intro h; simp [runSpecifiedSetup, h]
  · intro h1 h2
    cases fileProvided <;> simp [runSpecifiedSetup, h1, h2]
  · intro h1 h2 h3 h4
    cases fileProvided <;>
      simp [runSpecifiedSetup, createReporter, h1, h2, h3, h4]

/-- C7 witness: the amended rules at concrete flag values. -/
theorem exit_code_rules_witness :
    validFormat "bogus" = false ∧
    createReporter "bogus" = Outcome.exited 1 ∧
    validateCommandLineFlags "bogus" "json" "auto" = Outcome.exited 0 :=
  ⟨by decide,
   (exit_code_rules "bogus" "json" "auto" "" false (fun _ => true)).1 (by decide),
   (exit_code_rules "bogus" "json" "auto" "" false (fun _ => true)).2.1 (by decide)⟩

/-- C7 counterexample: an invalid format flag reaching flag validation makes
the process exit with code 0 through the usage message, not with code 1 as the
claim states. -/
theorem exit_code_validation_cex :
    validateCommandLineFlags "bogus" "json" "auto" = Outcome.exited 0 ∧
    Outcome.exited (α := Unit) 0 ≠ Outcome.exited 1 := by
  refine ⟨by decide, by decide⟩

/-! ## Repetition schedule (benchmark.cc, RunBenchmarks, lines 340 to 355)

The driver builds repetition_indices by appending GetNumRepeats(i) copies of
each runner index i in instance order, and shuffles the vector with
std::shuffle when random interleaving is enabled.  The per-runner repetition
counts are abstracted as a list, and the mt19937 draws of std::shuffle as an
oracle function; std::shuffle is the classic downward swap loop. -/

/-- The fill_n loop over the runners: append reps copies of each runner index
in order. -/
def fillRepetitions : List Nat → Nat → List Nat
  | [], _ => []
  | r :: rs, i => List.replicate r i ++ fillRepetitions rs (i + 1)

/-- The repetition_indices vector before any shuffling. -/
def buildRepetitionIndices (reps : List Nat) : List Nat :=
  fillRepetitions reps 0

/-- Follows the specification wording (comparison reference): the schedule is
the concatenation, in instance order, of each runner block of repetition
tokens. -/
def scheduleExpected (reps : List Nat) : List Nat :=
  (reps.enum.map (fun q => List.replicate q.2 q.1)).flatten

/-- One std::swap of two positions of the vector, reading both old values. -/
def swapAt (l : List Nat) (i j : Nat) : List Nat :=
  (l.set i (l.getD j 0)).set j (l.getD i 0)

/-- The std::shuffle loop: for i from n-1 down to 1, swap position i with a
position drawn uniformly from 0..i (here: the oracle draw reduced mod i+1). -/
def shuffleGo (oracle : Nat → Nat) : Nat → List Nat → List Nat
  | 0, l => l
  | i + 1, l => shuffleGo oracle i (swapAt l (i + 1) (oracle (i + 1) % (i + 2)))

/-- std::shuffle on the repetition_indices vector. -/
def stdShuffle (oracle : Nat → Nat) (l : List Nat) : List Nat :=
  shuffleGo oracle (l.length - 1) l

theorem cons_set_perm :
    ∀ (t : List Nat) (m : Nat) (x : Nat), m < t.length →
      (t.getD m 0 :: t.set m x).Perm (x :: t) := by
  intro t
  induction t with
  | nil => intro m x h; simp at h
  | cons b s ih =>
    intro m x h
    cases m with
    | zero => simpa using List.Perm.swap x b s
    | succ m =>
      have hm : m < s.length := by simpa using h
      have h1 : (s.getD m 0 :: b :: s.set m x).Perm (b :: s.getD m 0 :: s.set m x) :=
        List.Perm.swap b (s.getD m 0) (s.set m x)
      have h2 : (b :: s.getD m 0 :: s.set m x).Perm (b :: x :: s) :=
        List.Perm.cons b (ih m x hm)
      have h3 : (b :: x :: s).Perm (x :: b :: s) := List.Perm.swap x b s
      simpa using (h1.trans h2).trans h3

theorem set_getD_self :
    ∀ (l : List Nat) (i : Nat), i < l.length → l.set i (l.getD i 0) = l := by
  intro l
  induction l with
  | nil => intro i h; simp at h
  | cons a t ih =>
    intro i h
    cases i with
    | zero => simp
    | succ i => simpa using ih i (by simpa using h)

theorem swapAt_perm :
    ∀ (l : List Nat) (i j : Nat), i < l.length → j < l.length →
      (swapAt l i j).Perm l := by
  intro l
  induction l with
  | nil => intro i j hi _; simp at hi
  | cons a t ih =>
    intro i j hi hj
    cases i with
    | zero =>
      cases j with
      | zero =>
        unfold swapAt
        simp only [List.getD_cons_zero, List.set_cons_zero]
        exact List.Perm.refl _
      | succ m =>
        have hm : m < t.length := by simpa using hj
        unfold swapAt
        simp only [List.getD_cons_zero, List.getD_cons_succ, List.set_cons_zero,
          List.set_cons_succ]
        exact cons_set_perm t m a hm
    | succ n =>
      cases j with
      | zero =>
        have hn : n < t.length := by simpa using hi
        unfold swapAt
        simp only [List.getD_cons_zero, List.getD_cons_succ, List.set_cons_zero,
          List.set_cons_succ]
        exact cons_set_perm t n a hn
      | succ m =>
        have hn : n < t.length := by simpa using hi
        have hm : m < t.length := by simpa using hj
        unfold swapAt
        simp only [List.getD_cons_succ, List.set_cons_succ]
        exact List.Perm.cons a (ih n m hn hm)

theorem swapAt_length (l : List Nat) (i j : Nat) :
    (swapAt l i j).length = l.length := by
  simp [swapAt]

theorem shuffleGo_perm (oracle : Nat → Nat) :
    ∀ (k : Nat) (l : List Nat), k < l.length → (shuffleGo oracle k l).Perm l := by
  intro k
  induction k with
  | zero => intro l _; exact List.Perm.refl _
  | succ i ih =>
    intro l h
    have hj : oracle (i + 1) % (i + 2) < l.length :=
      lt_of_le_of_lt (Nat.le_of_lt_succ (Nat.mod_lt _ (by omega))) h
    have hlen : (swapAt l (i + 1) (oracle (i + 1) % (i + 2))).length = l.length :=
      swapAt_length l _ _
    exact (ih _ (by omega)).trans (swapAt_perm l _ _ h hj)

theorem stdShuffle_perm (oracle : Nat → Nat) (l : List Nat) :
    (stdShuffle oracle l).Perm l := by
  unfold stdShuffle
  rcases Nat.eq_zero_or_pos l.length with h | h
  · rw [h]
    exact List.Perm.refl l
  · exact shuffleGo_perm oracle (l.length - 1) l (by omega)

theorem fillRepetitions_eq :
    ∀ (reps : List Nat) (i : Nat),
      fillRepetitions reps i =
        ((reps.enumFrom i).map (fun q => List.replicate q.2 q.1)).flatten := by
  intro reps
  induction reps with
  | nil => intro i; rfl
  | cons r rs ih => intro i; simp [fillRepetitions, List.enumFrom, ih]

/-- C9: with random interleaving disabled the repetition schedule equals the
concatenation of each runner block of tokens in instance order; with random
interleaving enabled, the shuffled schedule is a permutation of the same
multiset of tokens, whatever values the random engine draws. -/
theorem repetition_schedule (reps : List Nat) (oracle : Nat → Nat) :
    buildRepetitionIndices reps = scheduleExpected reps ∧
    (stdShuffle oracle (buildRepetitionIndices reps)).Perm (scheduleExpected reps) := by
  have h : buildRepetitionIndices reps = scheduleExpected reps := by
    rw [buildRepetitionIndices, fillRepetitions_eq, scheduleExpected, List.enum]
  exact ⟨h, h ▸ stdShuffle_perm oracle (buildRepetitionIndices reps)⟩

/-! ## AddCustomContext (benchmark.cc, lines 515 to 523)

The global context map is allocated on first use; emplace inserts only when
the key is absent and reports whether it inserted; on a duplicate key an error
line is printed and the map is left unchanged.  std::map is modelled as an
association list observed through lookup. -/

/-- std::map::emplace: insert the pair only when the key is absent; the flag
tells whether the insertion happened. -/
def mapEmplace (m : List (String × String)) (k v : String) :
    List (String × String) × Bool :=
  match m.lookup k with
  | some _ => (m, false)
  | none => ((k, v) :: m, true)

/-- AddCustomContext: allocate the map on first use, emplace the pair, and
print an error (the Bool result) iff the emplace did not insert. -/
def addCustomContext (ctx : Option (List (String × String))) (k v : String) :
    Option (List (String × String)) × Bool :=
  let m := match ctx with
    | none => []
    | some m0 => m0
  ((mapEmplace m k v).1, !(mapEmplace m k v).2)

/-- The map held by the optional global context, empty before allocation. -/
def ctxMap (ctx : Option (List (String × String))) : List (String × String) :=
  match ctx with
  | none => []
  | some m0 => m0

theorem lookup_cons_key (k v k1 : String) (m : List (String × String)) :
    ((k, v) :: m).lookup k1 = if k1 = k then some v else m.lookup k1 := by
  by_cases h : k1 = k
  · subst h; simp [List.lookup]
  · have hb : (k1 == k) = false := beq_eq_false_iff_ne.mpr h
    simp [List.lookup, hb, h]

/-- C10: AddCustomContext allocates the map on first use; a duplicate key
prints an error and changes no binding (first writer wins); a fresh key is
inserted; every other key keeps its binding. -/
theorem addCustomContext_first_wins (ctx : Option (List (String × String)))
    (k v k1 : String) :
    (addCustomContext ctx k v).1 ≠ none ∧
    ((addCustomContext ctx k v).2 = true ↔ (ctxMap ctx).lookup k ≠ none) ∧
    (ctxMap (addCustomContext ctx k v).1).lookup k1 =
      (match (ctxMap ctx).lookup k1 with
       | some w => some w
       | none => if k1 = k then some v else none) := by
  cases ctx with
  | none =>
    refine ⟨by simp [addCustomContext, mapEmplace], ?_, ?_⟩
    · simp [addCustomContext, mapEmplace, ctxMap]
    · simp only [addCustomContext, mapEmplace, ctxMap, lookup_cons_key]
      by_cases h : k1 = k
      · simp [List.lookup, h]
      · have hb : (k1 == k) = false := beq_eq_false_iff_ne.mpr h
        simp [List.lookup, h, hb]
  | some m0 =>
    cases hk : m0.lookup k with
    | none =>
      refine ⟨by simp [addCustomContext, mapEmplace, hk, ctxMap], ?_, ?_⟩
      · simp [addCustomContext, mapEmplace, hk, ctxMap]
      · simp only [addCustomContext, mapEmplace, hk, ctxMap, lookup_cons_key]
        by_cases h : k1 = k
        · subst h
          simp [hk]
        · cases hl : m0.lookup k1 <;> simp [h, hl]
    | some w =>
      refine ⟨by simp [addCustomContext, mapEmplace, hk, ctxMap], ?_, ?_⟩
      · simp [addCustomContext, mapEmplace, hk, ctxMap]
      · simp only [addCustomContext, mapEmplace, hk, ctxMap]
        by_cases h : k1 = k
        · subst h
          simp [hk]
        · cases hl : m0.lookup k1 <;> simp [h, hl]

end Benchmark
